import Mathlib

/-!
Verification of the `clc` (code line count) crate against its natural-language
specification.  The crate's core, `count_lines` (src/main.rs), walks a directory
tree, filters regular files by extension, and for each matching file computes

  memchr_iter(b'\n', &re.replace_all(&bytes, b"\n")).count()
    + usize::from(!bytes.ends_with(b"\n"))

where `re` is the byte regex `\n\s+`.  The per-file counts are sent over an
mpsc channel and summed into a u128 total.

File contents are modelled as lists of bytes (`List Nat`).  The regex byte
class `\s` is modelled at the byte level by the ASCII whitespace bytes
(9–13 and 32); multi-byte UTF-8 whitespace encodings are outside the model.
-/

/-- The ASCII whitespace bytes, i.e. the byte-level reading of the regex
class `\s`: tab 9, newline 10, vertical tab 11, form feed 12, carriage
return 13, space 32. -/
def isWs (b : Nat) : Bool :=
  b == 32 || b == 9 || b == 10 || b == 11 || b == 12 || b == 13

/-- Model of `re.replace_all(&bytes, b"\n")` for the regex `\n\s+`
(src/main.rs:239, 268): scanning left to right, each leftmost match — a
newline byte followed by a maximal non-empty run of whitespace bytes — is
replaced by a single newline, and scanning resumes after the match. -/
def collapse : List Nat → List Nat
  | [] => []
  | [b] => [b]
  | b :: c :: rest =>
    if b == 10 && isWs c then
      10 :: collapse ((c :: rest).dropWhile isWs)
    else
      b :: collapse (c :: rest)
termination_by l => l.length
decreasing_by
  · have h : ((c :: rest).dropWhile isWs).length ≤ (c :: rest).length := by
      induction (c :: rest) with
      | nil => simp
      | cons x xs ih =>
        rw [List.dropWhile_cons]
        split
        · exact Nat.le_trans ih (by simp)
        · simp
    simp only [List.length_cons] at h ⊢
    omega
  · simp

/-- The per-file counting expression of `count_lines` (src/main.rs:268–269):
the number of newline bytes remaining after the whitespace collapse, plus one
when the content does not end with a newline
(`usize::from(!bytes.ends_with(b"\n"))`). -/
def countLines (bytes : List Nat) : Nat :=
  (collapse bytes).count 10 + (if bytes.getLast? = some 10 then 0 else 1)

/-- Single-pass state machine equivalent to `collapse`.  The Boolean state
records whether the scanner is currently inside a run of whitespace that
follows an emitted newline: in that state whitespace bytes (including further
newlines) are dropped; otherwise bytes are emitted, a newline switching the
state on. -/
def collapseAux : Bool → List Nat → List Nat
  | _, [] => []
  | true, b :: rest =>
    if isWs b then collapseAux true rest
    else b :: collapseAux false rest
  | false, b :: rest =>
    if b == 10 then 10 :: collapseAux true rest
    else b :: collapseAux false rest

/-- Automaton state of `collapseAux` after consuming a list. -/
def stateAfter : Bool → List Nat → Bool
  | s, [] => s
  | true, b :: rest =>
    if isWs b then stateAfter true rest
    else stateAfter false rest
  | false, b :: rest =>
    if b == 10 then stateAfter true rest
    else stateAfter false rest

/-- Spec-side helper.  Modelled from the spec's words (§8): scans the content
keeping track of whether the line read so far consists solely of whitespace
(`lineWs`); every newline byte that terminates such a line is counted, and
each newline resets the tracker for the next line. -/
def wsNlAux : Bool → List Nat → Nat
  | _, [] => 0
  | lineWs, b :: rest =>
    if b == 10 then (if lineWs then 1 else 0) + wsNlAux true rest
    else wsNlAux (lineWs && isWs b) rest

/-- Spec-side definition, following the spec's words for claim C3: the number
of `\n` bytes that immediately follow a line consisting solely of whitespace.
The scan starts with an empty — hence vacuously all-whitespace — current
line. -/
def wsNl (l : List Nat) : Nat := wsNlAux true l

/-- The content remaining after the first newline byte (everything if the
content has no newline is dropped). -/
def afterFirstNl : List Nat → List Nat
  | [] => []
  | b :: rest => if b == 10 then rest else afterFirstNl rest

/-- Spec-side definition for the amended claim C3: the number of `\n` bytes
that immediately follow a whitespace-only line, not counting the content's
first newline (whose line, the first line of the file, is never preceded by a
newline). -/
def wsNlRest (l : List Nat) : Nat := wsNl (afterFirstNl l)

/-- The newline-terminated portion of a content: everything up to and
including the last newline byte, empty when the content has no newline.  The
remainder of the content (its reverse's longest newline-free prefix reversed)
is the trailing partial line of the spec. -/
def terminatedPart (l : List Nat) : List Nat :=
  (l.reverse.dropWhile (fun b => !(b == 10))).reverse

/-- File-type tag of a directory entry, as reported by
`entry.file_type()` in the walker closure. -/
inductive FileType
  | file
  | dir
  | other
deriving DecidableEq

/-- A directory entry yielded by the walker: its file name (final path
component) and its file type (`none` models `entry.file_type()` returning
`None`, e.g. for the stdin pseudo-entry). -/
structure DirEntry where
  name : List Char
  fileType : Option FileType
deriving DecidableEq

/-- Model of `path.extension().and_then(|s| s.to_str()).unwrap_or("")`
(src/main.rs:259) on the entry's file name.  Rust's `Path::extension` is the
portion of the file name after its last dot, provided some dot occurs past
the first character (a name with no dot, or only a leading dot, has no
extension); `unwrap_or("")` turns the missing case into the empty string.
Names are modelled as valid Unicode, so the `to_str` conversion always
succeeds. -/
def extOf (name : List Char) : List Char :=
  if '.' ∈ name.drop 1 then
    (name.reverse.takeWhile (fun ch => !(ch == '.'))).reverse
  else
    []

/-- What the walker closure does with one entry before any I/O: skip it, or
read and count it. -/
inductive EntryAction
  | skip
  | readFile
deriving DecidableEq

/-- The per-entry filter of the walker closure (src/main.rs:255–263): entries
that are not regular files are skipped (`is_none_or(|ft| !ft.is_file())`),
then files whose extension is not contained in `exts` are skipped without
being read; all remaining files are read and counted. -/
def entryAction (exts : List (List Char)) (e : DirEntry) : EntryAction :=
  if e.fileType ≠ some FileType.file then EntryAction.skip
  else if !(exts.contains (extOf e.name)) then EntryAction.skip
  else EntryAction.readFile

/-- One item produced by the parallel walker: either an error entry
(`Err(_)`, e.g. an unreadable root or a broken symlink) or an entry together
with the outcome of `fs::read` on its path (`none` models a read failure
after discovery). -/
inductive WalkItem
  | err
  | ok (e : DirEntry) (content : Option (List Nat))
deriving DecidableEq

/-- Outcome of the walker closure on one item: a count sent on the channel,
nothing sent, or a panic. -/
inductive SendResult
  | sent (n : Nat)
  | nothing
  | panicked
deriving DecidableEq, BEq

/-- The walker closure of `count_lines` (src/main.rs:250–276) applied to one
item.  Error entries are dropped (`let Ok(entry) = entry else return
Continue`); skipped entries send nothing; for a matching file the content is
counted and the count sent — but when `fs::read` fails the closure evaluates
`unreachable!()` (src/main.rs:266), i.e. it panics. -/
def processItem (exts : List (List Char)) : WalkItem → SendResult
  | WalkItem.err => SendResult.nothing
  | WalkItem.ok e content =>
    match entryAction exts e with
    | EntryAction.skip => SendResult.nothing
    | EntryAction.readFile =>
      match content with
      | some bytes => SendResult.sent (countLines bytes)
      | none => SendResult.panicked

/-- The per-file counts delivered to the mpsc channel, in arrival order. -/
def sentCounts (exts : List (List Char)) (items : List WalkItem) : List Nat :=
  items.filterMap (fun i =>
    match processItem exts i with
    | SendResult.sent n => some n
    | _ => none)

/-- `count_lines` as a function of the walker's item sequence: `none` when
some closure invocation panicked (the process aborts, no total is produced),
otherwise `Ok` of the sum of all delivered counts
(`rx.iter().map(|n| n as u128).sum()`, src/main.rs:280).  The only error path
of the Rust function is compilation of the fixed regex `\n\s+`, which
succeeds, so the error branch of the result type is never taken; counts and
the u128 accumulator are modelled as `Nat`. -/
def countLinesRun (exts : List (List Char)) (items : List WalkItem) :
    Option (Except Unit Nat) :=
  if items.any (fun i => processItem exts i == SendResult.panicked) then none
  else some (Except.ok (sentCounts exts items).sum)

/-- Model of the depth-flag regex `^\-d[1-9][0-9]+$` (src/main.rs:289): a
dash, the letter d, one digit from 1 to 9, then one or more further
digits. -/
def depthReMatches : List Char → Bool
  | '-' :: 'd' :: d :: rest =>
    (d.isDigit && !(d == '0')) && (!rest.isEmpty && rest.all Char.isDigit)
  | _ => false

/-- Value of a decimal digit string. -/
def digitsToNat (s : List Char) : Nat :=
  s.foldl (fun acc ch => 10 * acc + (ch.toNat - 48)) 0

/-- Model of `str::parse::<usize>().ok()` restricted to the inputs the depth
regex lets through (non-empty digit strings): the value when it fits in a
64-bit usize, `None` on overflow. -/
def parseUsize (s : List Char) : Option Nat :=
  if s ≠ [] ∧ s.all Char.isDigit ∧ digitsToNat s < 2 ^ 64 then
    some (digitsToNat s)
  else
    none

/-- Effect of one flag token in `main`'s flag loop. -/
inductive FlagEffect
  | showHelp
  | showVersion
  | setHidden
  | setGit
  | setDepth (d : Option Nat)
  | notFound
deriving DecidableEq

/-- The flag dispatch of `main` (src/main.rs:305–327): literal matches for
`--help`, `-v`/`--version`, `-h`/`--hidden`, `-g`/`--git`; then any token
matched by the depth regex sets `maxdepth` to the parse of its digits; every
other token prints "flag not found" and exits. -/
def flagEffect (flag : List Char) : FlagEffect :=
  if flag = ['-', '-', 'h', 'e', 'l', 'p'] then FlagEffect.showHelp
  else if flag = ['-', 'v'] ∨ flag = ['-', '-', 'v', 'e', 'r', 's', 'i', 'o', 'n'] then
    FlagEffect.showVersion
  else if flag = ['-', 'h'] ∨ flag = ['-', '-', 'h', 'i', 'd', 'd', 'e', 'n'] then
    FlagEffect.setHidden
  else if flag = ['-', 'g'] ∨ flag = ['-', '-', 'g', 'i', 't'] then
    FlagEffect.setGit
  else if depthReMatches flag then
    FlagEffect.setDepth (parseUsize (flag.drop 2))
  else
    FlagEffect.notFound

/-- Model of `PartitionN::partition_n` (src/partition_n.rs:25–36): starting
from `N` empty buckets, each item of the input is appended to the bucket at
index `f(item) % N`.  For `N = 0` the Rust code panics on the remainder by
zero (with a non-empty input); the model is meaningful for `N ≥ 1`, as in
the claim. -/
def partition_n {α : Type} (N : Nat) (f : α → Nat) (l : List α) : List (List α) :=
  l.foldl
    (fun result item =>
      result.set (f item % N) (result.getD (f item % N) [] ++ [item]))
    (List.replicate N [])

theorem dropWhile_length_le {α : Type} (p : α → Bool) (l : List α) :
    (l.dropWhile p).length ≤ l.length := by
  induction l with
  | nil => simp
  | cons x xs ih =>
    rw [List.dropWhile_cons]
    split
    · exact Nat.le_trans ih (by simp)
    · simp

theorem collapseAux_true_dropWhile (m : List Nat) :
    collapseAux true m = collapseAux false (m.dropWhile isWs) := by
  induction m with
  | nil => simp [collapseAux]
  | cons b rest ih =>
    by_cases hws : isWs b = true
    · rw [List.dropWhile_cons_of_pos hws]
      simpa [collapseAux, hws] using ih
    · have hb : (b == 10) = false := by
        rcases Nat.decEq b 10 with h | h
        · simp [h]
        · subst h
          simp [isWs] at hws
      rw [List.dropWhile_cons_of_neg hws]
      simp [collapseAux, hws, hb]

theorem collapse_eq_aux (l : List Nat) : collapse l = collapseAux false l := by
  generalize hn : l.length = n
  induction n using Nat.strong_induction_on generalizing l with
  | _ n ih =>
    match l with
    | [] => simp [collapse, collapseAux]
    | [b] =>
      by_cases hb : b = 10 <;> simp [collapse, collapseAux, hb]
    | b :: c :: rest =>
      subst hn
      by_cases hm : (b == 10 && isWs c) = true
      · obtain ⟨hb, hc⟩ : b = 10 ∧ isWs c = true := by simpa using hm
        subst hb
        have hlen : ((c :: rest).dropWhile isWs).length < (10 :: c :: rest).length := by
          have := dropWhile_length_le isWs (c :: rest)
          simp only [List.length_cons] at this ⊢
          omega
        have hstep : collapseAux false (10 :: c :: rest) = 10 :: collapseAux true (c :: rest) := by
          simp [collapseAux]
        rw [collapse, if_pos hm, ih _ hlen _ rfl, hstep, collapseAux_true_dropWhile]
      · have hlen : (c :: rest).length < (b :: c :: rest).length := by simp
        rw [collapse, if_neg hm, ih _ hlen _ rfl]
        by_cases hb : b = 10
        · subst hb
          have hc : isWs c = false := by simpa using hm
          have hc10 : (c == 10) = false := by
            rcases Nat.decEq c 10 with h | h
            · simp [h]
            · subst h
              simp [isWs] at hc
          simp [collapseAux, hc, hc10]
        · have hb' : (b == 10) = false := by simp [hb]
          simp [collapseAux, hb']

theorem countLines_eq (l : List Nat) :
    countLines l =
      (collapseAux false l).count 10 + (if l.getLast? = some 10 then 0 else 1) := by
  unfold countLines
  rw [collapse_eq_aux]

theorem count_collapseAux_wsNl (l : List Nat) :
    (collapseAux true l).count 10 + wsNlAux true l = l.count 10 ∧
    (collapseAux false l).count 10 + wsNlAux false l = l.count 10 := by
  induction l with
  | nil => simp [collapseAux, wsNlAux]
  | cons b rest ih =>
    obtain ⟨ih₁, ih₂⟩ := ih
    by_cases hb : b = 10
    · subst hb
      have hws10 : isWs 10 = true := rfl
      constructor
      · simp [collapseAux, wsNlAux, hws10, List.count_cons]
        omega
      · simp [collapseAux, wsNlAux, List.count_cons]
        omega
    · have hb' : (b == 10) = false := by simp [hb]
      cases hws : isWs b
      · constructor
        · simp [collapseAux, wsNlAux, hws, hb', List.count_cons, hb]
          omega
        · simp [collapseAux, wsNlAux, hws, hb', List.count_cons, hb]
          omega
      · constructor
        · simp [collapseAux, wsNlAux, hws, hb', List.count_cons, hb]
          omega
        · simp [collapseAux, wsNlAux, hws, hb', List.count_cons, hb]
          omega

theorem count_collapseAux_le (s : Bool) (m : List Nat) :
    (collapseAux s m).count 10 ≤ m.count 10 := by
  obtain ⟨h₁, h₂⟩ := count_collapseAux_wsNl m
  cases s
  · omega
  · omega

theorem collapseAux_append (P T : List Nat) :
    ∀ s : Bool, collapseAux s (P ++ T) = collapseAux s P ++ collapseAux (stateAfter s P) T := by
  induction P with
  | nil =>
    intro s
    simp [collapseAux, stateAfter]
  | cons b rest ih =>
    intro s
    cases s
    · cases hb : b == 10
      · simp [collapseAux, stateAfter, hb, ih]
      · simp [collapseAux, stateAfter, hb, ih]
    · cases hws : isWs b
      · simp [collapseAux, stateAfter, hws, ih]
      · simp [collapseAux, stateAfter, hws, ih]

theorem wsNlAux_false_eq_afterFirstNl (m : List Nat) :
    wsNlAux false m = wsNlAux true (afterFirstNl m) := by
  induction m with
  | nil => simp [wsNlAux, afterFirstNl]
  | cons b rest ih =>
    by_cases hb : b = 10
    · subst hb
      simp [wsNlAux, afterFirstNl]
    · have hb' : (b == 10) = false := by simp [hb]
      simp only [wsNlAux, afterFirstNl, hb', Bool.false_and, Bool.false_eq_true, if_false]
      exact ih

theorem wsNlRest_eq (l : List Nat) : wsNlRest l = wsNlAux false l := by
  unfold wsNlRest wsNl
  rw [wsNlAux_false_eq_afterFirstNl]

/-- Claim C1, evaluated at the failing input: for a matching regular file
whose `fs::read` fails after discovery (e.g. it was deleted between discovery
and read), the walker closure evaluates `unreachable!()` — it panics instead
of dropping the file and continuing, contradicting both the spec and the
function's own error documentation. -/
theorem c1_read_failure_panics :
    processItem [['r', 's']]
        (WalkItem.ok ⟨['m', 'a', 'i', 'n', '.', 'r', 's'], some FileType.file⟩ none) =
      SendResult.panicked := by
  decide

/-- Claim C2, evaluated at the failing input: on a zero-byte file the
line-counting step computes 1, not the 0 the spec requires — the
`usize::from(!bytes.ends_with(b"\n"))` increment fires even on empty
content. -/
theorem c2_empty_file_eval : countLines [] = 1 := by
  rw [countLines_eq]
  decide

/-- Claim C4: the four example contents of the spec.  `"a\n"` counts 1,
`"a"` counts 1, `"a\n\n\nb\n"` counts 2 (the blank-line run collapses), and
`"a\n   \nb"` counts 2 (the space-only line collapses, the unterminated
trailing `b` adds one). -/
theorem c4_line_count_examples :
    countLines [97, 10] = 1 ∧
    countLines [97] = 1 ∧
    countLines [97, 10, 10, 10, 98, 10] = 2 ∧
    countLines [97, 10, 32, 32, 32, 10, 98] = 2 := by
  simp only [countLines_eq]
  decide

/-- Claim C3 as stated is false.  Counterexample: the content `" \nb\n"`
(bytes [32, 10, 98, 10]) ends in a newline; the code computes Line Count 2,
but the number of newline bytes (2) minus the number of newlines immediately
following a whitespace-only line (1 — the newline terminating the first
line, which consists of a single space) is 1.  The regex `\n\s+` only
collapses whitespace that follows a newline, so a whitespace-only first line
never collapses. -/
theorem c3_counterexample :
    ([32, 10, 98, 10] : List Nat).getLast? = some 10 ∧
    countLines [32, 10, 98, 10] ≠
      ([32, 10, 98, 10] : List Nat).count 10 - wsNl [32, 10, 98, 10] := by
  refine ⟨rfl, ?_⟩
  rw [countLines_eq]
  decide

/-- Claim C3 (amended): for every content ending in a newline, the computed
Line Count equals the number of newline bytes minus the number of newline
bytes that immediately follow a line consisting solely of whitespace,
excluding the content's first newline — the first line of the content never
collapses, because the regex `\n\s+` requires a preceding newline. -/
theorem c3_collapse_rule (l : List Nat) (h : l.getLast? = some 10) :
    countLines l = l.count 10 - wsNlRest l := by
  have h2 := (count_collapseAux_wsNl l).2
  rw [countLines_eq, wsNlRest_eq, if_pos h]
  omega

/-- Witness for the amended claim C3 at the content `"a\n \nb\n"`. -/
theorem c3_collapse_rule_witness :
    ([97, 10, 32, 10, 98, 10] : List Nat).getLast? = some 10 ∧
    countLines [97, 10, 32, 10, 98, 10] =
      ([97, 10, 32, 10, 98, 10] : List Nat).count 10 -
        wsNlRest [97, 10, 32, 10, 98, 10] :=
  ⟨by decide, c3_collapse_rule [97, 10, 32, 10, 98, 10] (by decide)⟩

/-- Claim C7, evaluated at the failing input: the depth regex
`^\-d[1-9][0-9]+$` requires at least two digits after `-d`, so the flag
`-d2` — the very example in the program's own help text — is rejected as
"flag not found", while `-d25` parses to depth 25. -/
theorem c7_depth_flag_eval :
    flagEffect ['-', 'd', '2'] = FlagEffect.notFound ∧
    flagEffect ['-', 'd', '2', '5'] = FlagEffect.setDepth (some 25) := by
  refine ⟨by decide, ?_⟩
  decide

/-- Claim C6: the walker closure reads and counts an entry exactly when it is
a regular file whose extension is a member of the extension set — membership
being exact, case-sensitive equality of character lists — and in particular a
file `x.RS` does not match the extension `rs` and is skipped without being
read. -/
theorem c6_extension_filter :
    (∀ (exts : List (List Char)) (e : DirEntry),
        entryAction exts e = EntryAction.readFile ↔
          e.fileType = some FileType.file ∧ extOf e.name ∈ exts) ∧
    entryAction [['r', 's']]
        ⟨['x', '.', 'R', 'S'], some FileType.file⟩ = EntryAction.skip := by
  refine ⟨?_, by decide⟩
  intro exts e
  unfold entryAction
  by_cases h1 : e.fileType = some FileType.file
  · by_cases h2 : extOf e.name ∈ exts
    · simp [h1, h2, List.contains]
    · simp [h1, h2, List.contains]
  · simp [h1]

theorem perm_any_eq {α : Type} (p : α → Bool) {l₁ l₂ : List α}
    (h : List.Perm l₁ l₂) : l₁.any p = l₂.any p := by
  cases h1 : l₁.any p
  · cases h2 : l₂.any p
    · rfl
    · obtain ⟨x, hx, hpx⟩ := List.any_eq_true.mp h2
      have hcontra : l₁.any p = true :=
        List.any_eq_true.mpr ⟨x, h.mem_iff.mpr hx, hpx⟩
      rw [h1] at hcontra
      exact absurd hcontra (by simp)
  · obtain ⟨x, hx, hpx⟩ := List.any_eq_true.mp h1
    exact (List.any_eq_true.mpr ⟨x, h.mem_iff.mp hx, hpx⟩).symm

/-- Claim C8: when every item the walker yields is an error entry — as
happens when the root path does not exist or cannot be opened — every failed
entry is dropped at discovery, nothing is sent, and the caller receives `Ok`
with a Total of 0, not a distinguishable error. -/
theorem c8_root_error_total_zero (exts : List (List Char)) (items : List WalkItem)
    (h : ∀ i ∈ items, i = WalkItem.err) :
    countLinesRun exts items = some (Except.ok 0) := by
  unfold countLinesRun
  have hany : items.any (fun i => processItem exts i == SendResult.panicked) = false := by
    rw [List.any_eq_false]
    intro i hi
    rw [h i hi]
    simp only [processItem]
    decide
  rw [if_neg (by simp [hany])]
  have hsent : sentCounts exts items = [] := by
    unfold sentCounts
    rw [List.filterMap_eq_nil_iff]
    intro i hi
    rw [h i hi]
    rfl
  rw [hsent]
  rfl

/-- Witness for claim C8: a run yielding two error entries returns `Ok 0`. -/
theorem c8_root_error_witness :
    countLinesRun [] [WalkItem.err, WalkItem.err] = some (Except.ok 0) :=
  c8_root_error_total_zero [] [WalkItem.err, WalkItem.err] (by decide)

/-- Claim C9: the Total of `count_lines` is independent of the arrival order
of the walker's items — hence of worker count and scheduling: any permutation
of the item sequence yields the identical result, because the aggregator is a
sum of the delivered counts and addition is associative and commutative. -/
theorem c9_total_order_invariant (exts : List (List Char))
    (items₁ items₂ : List WalkItem) (h : List.Perm items₁ items₂) :
    countLinesRun exts items₁ = countLinesRun exts items₂ := by
  unfold countLinesRun
  have hperm : List.Perm (sentCounts exts items₁) (sentCounts exts items₂) := by
    unfold sentCounts
    exact h.filterMap _
  rw [perm_any_eq _ h, hperm.sum_eq]

/-- Witness for claim C9: swapping an error item and a matching-file item
leaves the result unchanged. -/
theorem c9_total_order_witness :
    countLinesRun [['r', 's']]
        [WalkItem.err,
          WalkItem.ok ⟨['a', '.', 'r', 's'], some FileType.file⟩ (some [97, 10])] =
      countLinesRun [['r', 's']]
        [WalkItem.ok ⟨['a', '.', 'r', 's'], some FileType.file⟩ (some [97, 10]),
          WalkItem.err] :=
  c9_total_order_invariant [['r', 's']] _ _ (List.Perm.swap _ _ _)

/-- Claim C5: for every content, the trailing partial line — the bytes after
the final newline, or the entire content when it has no newline — contributes
exactly one additional counted line if and only if the content does not end
with a newline: the Line Count is the count of the newline-terminated portion
(0 when that portion is empty) plus one exactly when the content does not end
in a newline. -/
theorem c5_trailing_partial (l : List Nat) :
    countLines l =
      (if terminatedPart l = [] then 0 else countLines (terminatedPart l)) +
      (if l.getLast? = some 10 then 0 else 1) := by
  have hsplit : l.reverse.takeWhile (fun b => !(b == 10)) ++
      l.reverse.dropWhile (fun b => !(b == 10)) = l.reverse :=
    List.takeWhile_append_dropWhile _ _
  have hl : l = (l.reverse.dropWhile (fun b => !(b == 10))).reverse ++
      (l.reverse.takeWhile (fun b => !(b == 10))).reverse := by
    have h2 := congrArg List.reverse hsplit
    rw [List.reverse_append, List.reverse_reverse] at h2
    exact h2.symm
  have hTfree : ∀ x ∈ l.reverse.takeWhile (fun b => !(b == 10)), x ≠ 10 := by
    intro x hx
    have := List.mem_takeWhile_imp hx
    simpa using this
  by_cases hD : l.reverse.dropWhile (fun b => !(b == 10)) = []
  · have hterm : terminatedPart l = [] := by
      unfold terminatedPart
      rw [hD]
      simp
    have hfree : ∀ x ∈ l, x ≠ 10 := by
      intro x hx
      have hx' : x ∈ l.reverse := List.mem_reverse.mpr hx
      have := (List.dropWhile_eq_nil_iff.mp hD) x hx'
      simpa using this
    have hcount0 : l.count 10 = 0 :=
      List.count_eq_zero.mpr (fun hmem => hfree 10 hmem rfl)
    have hcoll0 : (collapseAux false l).count 10 = 0 := by
      have := count_collapseAux_le false l
      omega
    have hlast : ¬ l.getLast? = some 10 := by
      intro hcontra
      exact hfree 10 (List.mem_of_getLast?_eq_some hcontra) rfl
    rw [countLines_eq, hterm, if_pos rfl, if_neg hlast, hcoll0]
  · obtain ⟨d, ds, hds⟩ := List.exists_cons_of_ne_nil hD
    have hd10 : d = 10 := by
      have hh := List.head?_dropWhile_not (fun b => !(b == 10)) l.reverse
      rw [hds] at hh
      simpa using hh
    subst hd10
    have hPlast :
        ((l.reverse.dropWhile (fun b => !(b == 10))).reverse).getLast? = some 10 := by
      rw [List.getLast?_eq_head?_reverse, List.reverse_reverse, hds]
      rfl
    have hPne : (l.reverse.dropWhile (fun b => !(b == 10))).reverse ≠ [] := by
      rw [hds]
      simp
    by_cases hT : l.reverse.takeWhile (fun b => !(b == 10)) = []
    · have hlP : l = (l.reverse.dropWhile (fun b => !(b == 10))).reverse := by
        rw [hT] at hl
        simpa using hl
      have ht : terminatedPart l = l := by
        unfold terminatedPart
        exact hlP.symm
      have hlast : l.getLast? = some 10 := by
        rw [hlP]
        exact hPlast
      rw [ht, if_neg (by rw [hlP]; exact hPne), if_pos hlast]
      omega
    · have hlast : ¬ l.getLast? = some 10 := by
        rw [List.getLast?_eq_head?_reverse]
        obtain ⟨t, ts, hts⟩ := List.exists_cons_of_ne_nil hT
        have ht10 : t ≠ 10 := hTfree t (hts ▸ List.mem_cons_self t ts)
        rw [← hsplit, hts]
        simp [ht10]
      have htermne : ¬ terminatedPart l = [] := by
        unfold terminatedPart
        rw [hds]
        simp
      have htp : terminatedPart l =
          (l.reverse.dropWhile (fun b => !(b == 10))).reverse := rfl
      rw [countLines_eq, if_neg htermne, if_neg hlast, htp, countLines_eq,
        if_pos hPlast]
      have happ := collapseAux_append
        ((l.reverse.dropWhile (fun b => !(b == 10))).reverse)
        ((l.reverse.takeWhile (fun b => !(b == 10))).reverse) false
      have hTcount :
          ((l.reverse.takeWhile (fun b => !(b == 10))).reverse).count 10 = 0 := by
        rw [List.count_eq_zero]
        intro hmem
        rw [List.mem_reverse] at hmem
        exact hTfree 10 hmem rfl
      have hTcoll := count_collapseAux_le
        (stateAfter false ((l.reverse.dropWhile (fun b => !(b == 10))).reverse))
        ((l.reverse.takeWhile (fun b => !(b == 10))).reverse)
      conv_lhs => rw [hl]
      rw [happ, List.count_append]
      omega

theorem getD_set_self {α : Type} (l : List α) (i : Nat) (a d : α)
    (h : i < l.length) : (l.set i a).getD i d = a := by
  induction l generalizing i with
  | nil => simp at h
  | cons x xs ih =>
    cases i with
    | zero => rfl
    | succ n =>
      have hstep : ((x :: xs).set (n + 1) a).getD (n + 1) d = (xs.set n a).getD n d := rfl
      rw [hstep]
      exact ih n (by simpa using h)

theorem getD_set_ne {α : Type} (l : List α) (i j : Nat) (a d : α)
    (h : i ≠ j) : (l.set i a).getD j d = l.getD j d := by
  induction l generalizing i j with
  | nil => rfl
  | cons x xs ih =>
    cases i with
    | zero =>
      cases j with
      | zero => exact absurd rfl h
      | succ m => rfl
    | succ n =>
      cases j with
      | zero => rfl
      | succ m =>
        have hstep : ((x :: xs).set (n + 1) a).getD (m + 1) d = (xs.set n a).getD m d := rfl
        rw [hstep]
        exact ih n m (fun hh => h (by rw [hh]))

theorem getD_replicate_nil {α : Type} :
    ∀ (N i : Nat), (List.replicate N ([] : List α)).getD i [] = [] := by
  intro N
  induction N with
  | zero => intro i; rfl
  | succ n ih =>
    intro i
    cases i with
    | zero => rfl
    | succ m => exact ih m

theorem partition_n_foldl_length {α : Type} (N : Nat) (f : α → Nat) (l : List α) :
    ∀ acc : List (List α),
      (l.foldl
        (fun result item =>
          result.set (f item % N) (result.getD (f item % N) [] ++ [item]))
        acc).length = acc.length := by
  induction l with
  | nil => intro acc; rfl
  | cons x xs ih =>
    intro acc
    rw [List.foldl_cons, ih]
    simp

theorem partition_n_length {α : Type} (N : Nat) (f : α → Nat) (l : List α) :
    (partition_n N f l).length = N := by
  unfold partition_n
  rw [partition_n_foldl_length]
  simp

theorem partition_n_foldl_getD {α : Type} (N : Nat) (f : α → Nat) (l : List α) :
    ∀ acc : List (List α), acc.length = N → ∀ i, i < N →
      (l.foldl
        (fun result item =>
          result.set (f item % N) (result.getD (f item % N) [] ++ [item]))
        acc).getD i [] = acc.getD i [] ++ l.filter (fun x => f x % N == i) := by
  induction l with
  | nil =>
    intro acc hacc i hi
    simp
  | cons x xs ih =>
    intro acc hacc i hi
    rw [List.foldl_cons,
      ih (acc.set (f x % N) (acc.getD (f x % N) [] ++ [x])) (by simpa using hacc) i hi,
      List.filter_cons]
    by_cases hij : f x % N = i
    · rw [hij, getD_set_self acc i (acc.getD i [] ++ [x]) [] (by rw [hacc]; exact hi)]
      simp [List.append_assoc]
    · rw [getD_set_ne acc (f x % N) i (acc.getD (f x % N) [] ++ [x]) [] hij]
      have hcond : (f x % N == i) = false := by simp [hij]
      rw [hcond]
      simp

/-- Claim C10: for every finite input, bucket count `N ≥ 1` and classifier
`f`, `partition_n` returns exactly `N` buckets, and bucket `i` is precisely
the subsequence of input items whose classifier value is congruent to `i`
modulo `N` — so every item lands in exactly one bucket, the one at index
`f item % N` (classifier values of `N` or more wrap around instead of going
out of bounds), and each bucket preserves the relative input order. -/
theorem c10_partition_n_spec {α : Type} (N : Nat) (f : α → Nat) (l : List α)
    (hN : 0 < N) :
    (partition_n N f l).length = N ∧
    ∀ i, i < N → (partition_n N f l).getD i [] = l.filter (fun x => f x % N == i) := by
  refine ⟨partition_n_length N f l, ?_⟩
  intro i hi
  unfold partition_n
  rw [partition_n_foldl_getD N f l (List.replicate N []) (by simp) i hi,
    getD_replicate_nil]
  simp

/-- Witness for claim C10 with two buckets and the identity classifier on
`[0, 1, 2, 3]`: the bucket at index 1 is `[1, 3]`. -/
theorem c10_partition_n_witness :
    (partition_n 2 (fun n : Nat => n) [0, 1, 2, 3]).getD 1 [] = [1, 3] := by
  have h := (c10_partition_n_spec 2 (fun n : Nat => n) [0, 1, 2, 3] (by decide)).2 1
    (by decide)
  rw [h]
  decide
